import Mathlib

/-!
Verification of the milestone-Gantt timeline core (src/index.ts).

The TypeScript source is shallowly embedded below.  Machine numbers are
modelled as `Nat`/`Int`/`Rat`; JavaScript `Date` normalization (month and
day overflow, the 0..99 → 1900..1999 year remap) is modelled explicitly by
`jsDateNorm`; JavaScript strings are Lean `String`s; fallible code returns
`Option`/`Except`.  Every definition is written to be executable so that
concrete witnesses evaluate by `decide`/`rfl`.
-/

namespace MilestoneGantt

/-! ## Calendar model (JavaScript `Date` semantics used by the source) -/
/-- Gregorian leap-year test, as implemented by the JavaScript `Date`
normalization that `isValidYmd` and `eachDayKey` rely on. -/
def isLeap (y : ℕ) : Bool :=
  (y % 4 == 0 && y % 100 != 0) || y % 400 == 0

/-- Length of month `m` (1..12) of year `y`; out-of-range months only occur
transiently during normalization and default to 31. -/
def daysInMonth (y m : ℕ) : ℕ :=
  match m with
  | 2 => if isLeap y then 29 else 28
  | 4 => 30
  | 6 => 30
  | 9 => 30
  | 11 => 30
  | _ => 31

/-- Days of year `y` strictly before month `m` (1..12). -/
def daysBeforeMonth (y m : ℕ) : ℕ :=
  (match m with
   | 1 => 0 | 2 => 31 | 3 => 59 | 4 => 90 | 5 => 120 | 6 => 151
   | 7 => 181 | 8 => 212 | 9 => 243 | 10 => 273 | 11 => 304 | _ => 334)
  + (if 3 ≤ m && isLeap y then 1 else 0)

/-- Days from 0000-01-01 (proleptic Gregorian, year 0 is a leap year) to
the start of year `y`.  This is the day-count the `Date` timestamps in the
source are monotone in. -/
def daysToYearStart (y : ℕ) : ℕ :=
  365 * y + ((y + 3) / 4 + (y + 399) / 400 - (y + 99) / 100)

/-- Absolute day number of the calendar date `(y, m, d)` (days since
0000-01-01); meaningful for normalized dates (`1 ≤ m ≤ 12`,
`1 ≤ d ≤ daysInMonth y m`). -/
def toDayNo (y m d : ℕ) : ℕ :=
  daysToYearStart y + daysBeforeMonth y m + d - 1

/-- Day number of a packed date triple. -/
def toDayNo3 (x : ℕ × ℕ × ℕ) : ℕ :=
  toDayNo x.1 x.2.1 x.2.2

/-- JavaScript `new Date(y, monthIndex, d)` first folds an arbitrary
`monthIndex = m - 1` into the year.  `m` here is 1-based (`m = 0` denotes
monthIndex `-1`, i.e. December of the previous year); larger months spill
into later years. -/
def monthNorm (y m : ℕ) : ℕ × ℕ :=
  if m = 0 then (y - 1, 12) else (y + (m - 1) / 12, (m - 1) % 12 + 1)

/-- Step to the first day of the following month. -/
def rollMonth (y m : ℕ) : ℕ × ℕ :=
  if 12 ≤ m then (y + 1, 1) else (y, m + 1)

/-- Last day of the month preceding `(y, m)`; models `new Date(y, m-1, 0)`. -/
def prevMonthEnd (y m : ℕ) : ℕ × ℕ × ℕ :=
  if m = 1 then (y - 1, 12, 31)
  else (y, m - 1, daysInMonth y (m - 1))

/-- Day-overflow normalization: while the day exceeds the current month,
move to the next month.  The fuel argument (instantiated with `d`, an upper
bound on the number of rolls since every roll removes at least 28 days)
keeps the recursion structural so that the kernel can evaluate it. -/
def dayRoll : ℕ → ℕ → ℕ → ℕ → ℕ × ℕ × ℕ
  | 0, y, m, d => (y, m, d)
  | fuel + 1, y, m, d =>
    if d ≤ daysInMonth y m then (y, m, d)
    else dayRoll fuel (rollMonth y m).1 (rollMonth y m).2 (d - daysInMonth y m)

/-- The year remap JavaScript applies in the `Date(y, m, d)` constructor:
two-digit years 0..99 denote 1900..1999. -/
def jsDateYear (y : ℕ) : ℕ :=
  if y ≤ 99 then y + 1900 else y

/-- Date normalization without the constructor's year remap (this is what
`setDate` and the other field setters perform): fold the month into the
year, then resolve day overflow (`d = 0` meaning the last day of the
previous month).  Negative years cannot arise at any call site in the
source (keys have four-digit years and validated strings are remapped to
≥ 1900), so `Nat` truncation is harmless. -/
def dateNormNoRemap (y m d : ℕ) : ℕ × ℕ × ℕ :=
  let ym := monthNorm y m
  if d = 0 then prevMonthEnd ym.1 ym.2
  else dayRoll d ym.1 ym.2 d

/-- Full normalization performed by `new Date(y, m - 1, d)` followed by
reading `getFullYear() / getMonth() + 1 / getDate()`: remap two-digit
years, then normalize month and day overflow. -/
def jsDateNorm (y m d : ℕ) : ℕ × ℕ × ℕ :=
  dateNormNoRemap (jsDateYear y) m d

/-- Weekday as returned by `Date.prototype.getDay` (0 = Sunday .. 6 =
Saturday), computed from the absolute day number; the offset is fixed by
1970-01-01 being a Thursday (= 4). -/
def jsGetDay (y m d : ℕ) : ℕ :=
  (toDayNo3 (jsDateNorm y m d) + 6) % 7

/-! ## Calendar Key Utility (`isValidYmd`, `keyOfYmd`, `ymdFromKey`) -/
/-- Core of `isValidYmd` once the string `"YYYY-MM-DD"` has been split into
its digit groups: the explicit `1 ≤ m ≤ 12` test, then the round-trip check
`new Date(y, m-1, d)` reads back exactly `(y, m, d)` (which rejects
overflowed days such as 2024-02-30, and also every `y ≤ 99` because of the
1900 remap). -/
def isValidYmdCore (y m d : ℕ) : Bool :=
  1 ≤ m && m ≤ 12 && decide (jsDateNorm y m d = (y, m, d))

/-- Validation of the digit triple of a `YYYY-MM-DD` string.  The bounds
`y ≤ 9999`, `m ≤ 99`, `d ≤ 99` record that the regular expression
`^(\d{4})-(\d{2})-(\d{2})$` admits exactly 4, 2 and 2 digits. -/
def isValidYmd (y m d : ℕ) : Bool :=
  y ≤ 9999 && m ≤ 99 && d ≤ 99 && isValidYmdCore y m d

/-- Function `keyOfYmd` on the digit triple of the date string: validate,
then strip the dashes and read the digits as one integer,
`y*10000 + m*100 + d`. -/
def keyOfYmd (y m d : ℕ) : Option ℕ :=
  if isValidYmd y m d then some (y * 10000 + m * 100 + d) else none

/-- Function `ymdFromKey`: `String(k)` must have exactly 8 characters
(no validity check beyond that); the three digit groups of the rendered
`"YYYY-MM-DD"` string are returned as a triple, `none` modelling the empty
string returned for malformed keys. -/
def ymdFromKey (k : ℕ) : Option (ℕ × ℕ × ℕ) :=
  if 10000000 ≤ k ∧ k ≤ 99999999 then
    some (k / 10000, k / 100 % 100, k % 100)
  else none

/-! ## Pan/Zoom controller (`onWheel`) -/
/-- The local `clamp` helper of `installPanZoom`,
`Math.max(min, Math.min(max, v))`. -/
def clamp (v lo hi : ℕ) : ℕ :=
  max lo (min hi v)

/-- One multiplicative zoom step of `onWheel`: multiply the current day
width by 1.12 (wheel up, `deltaY < 0`) or 0.88 (wheel down), round, clamp
to [6, 80].  The source computes `Math.round(oldDayW * factor)` with the
IEEE doubles 1.12 and 0.88; for a nonnegative integer day width the exact
products have fractional parts that are multiples of 1/25, hence at least
1/50 away from a rounding boundary, which dwarfs the double rounding
error, so the float computation agrees with the exact integer expression
`(dayW * 112 + 50) / 100` (respectively 88), which is how rounding is
modelled here. -/
def zoomStep (dayW : ℕ) (zoomIn : Bool) : ℕ :=
  clamp ((dayW * (if zoomIn then 112 else 88) + 50) / 100) 6 80

/-- Mutable state read and written by the wheel handler: the day width
`this.dayW` and the timeline pane's `scrollLeft`. -/
structure PanZoomState where
  dayW : ℕ
  scrollLeft : ℚ
  deriving DecidableEq

/-- The `onWheel` handler.  `itemsNonempty` models
`this.lastItems.length > 0`, `deltaY` the (always finite in this model)
vertical wheel delta and `mouseX` the cursor x within the pane
(`e.clientX - rect.left`).  Returns the updated state together with the
flag telling whether a re-render was triggered.  The final `scrollLeft`
write happens in a `requestAnimationFrame` callback after the re-render;
its computed value is modelled directly.  The browser may afterwards clamp
`scrollLeft` to the pane's scroll bounds, which is outside the source. -/
def onWheel (st : PanZoomState) (itemsNonempty : Bool) (deltaY mouseX : ℚ) :
    PanZoomState × Bool :=
  if !itemsNonempty then (st, false)
  else if deltaY = 0 then (st, false)
  else
    let oldDayW := st.dayW
    let contentX : ℚ := st.scrollLeft + mouseX
    let dayAtCursor : ℚ := contentX / oldDayW
    let next := zoomStep oldDayW (decide (deltaY < 0))
    if next = oldDayW then (st, false)
    else ({ dayW := next, scrollLeft := dayAtCursor * next - mouseX }, true)

/-- Folding a whole sequence of wheel events over the pan/zoom state. -/
def wheelEvents (itemsNonempty : Bool) (st : PanZoomState)
    (evs : List (ℚ × ℚ)) : PanZoomState :=
  evs.foldl (fun s e => (onWheel s itemsNonempty e.1 e.2).1) st

/-! ## String utilities of the source -/
/-- Whitespace recognized by the model for `String.prototype.trim` and the
regex class `\s`, restricted to the characters that can actually occur in
this codebase (ASCII whitespace and the no-break space). -/
def isJsSpace (c : Char) : Bool :=
  c = ' ' || c = '\t' || c = '\n' || c = '\r' ||
    c = '\x0b' || c = '\x0c' || c = ' '

/-- List-level trim. -/
def jsTrimList (l : List Char) : List Char :=
  ((l.dropWhile isJsSpace).reverse.dropWhile isJsSpace).reverse

/-- Model of `String.prototype.trim`. -/
def jsTrim (s : String) : String :=
  String.mk (jsTrimList s.toList)

/-- Recognizer for the tail of a `<br ... >` tag (input starts right after
the `<`): `br` case-insensitively, optional whitespace, optional `/`,
optional whitespace, `>`; returns the remaining input on a match.  Models
one match of the regex `<br\s*\/?\s*>` with the `i` flag. -/
def tryBrTag (l : List Char) : Option (List Char) :=
  match l with
  | b :: r :: rest =>
    if (b = 'b' ∨ b = 'B') ∧ (r = 'r' ∨ r = 'R') then
      let rest1 := rest.dropWhile isJsSpace
      let rest2 := match rest1 with
        | '/' :: t => t.dropWhile isJsSpace
        | _ => rest1
      match rest2 with
      | '>' :: t => some t
      | _ => none
    else none
  | _ => none

/-- Global replacement of `<br>`-like tags by a newline,
`.replace(/<br\s*\/?\s*>/gi, '\n')`.  The fuel argument (instantiated with
the input length, an upper bound on the number of scan positions) keeps the
recursion structural. -/
def replaceBrTags : ℕ → List Char → List Char
  | 0, l => l
  | _ + 1, [] => []
  | fuel + 1, c :: cs =>
    if c = '<' then
      match tryBrTag cs with
      | some rest => '\n' :: replaceBrTags fuel rest
      | none => c :: replaceBrTags fuel cs
    else c :: replaceBrTags fuel cs

/-- Global replacement of the entity `&nbsp;` (case-insensitive) by a
space, `.replace(/&nbsp;/gi, ' ')`. -/
def replaceNbspEntity : List Char → List Char
  | [] => []
  | '&' :: n :: b :: s :: p :: q :: rest =>
    if (n = 'n' ∨ n = 'N') ∧ (b = 'b' ∨ b = 'B') ∧ (s = 's' ∨ s = 'S') ∧
        (p = 'p' ∨ p = 'P') ∧ q = ';' then
      ' ' :: replaceNbspEntity rest
    else '&' :: replaceNbspEntity (n :: b :: s :: p :: q :: rest)
  | c :: cs => c :: replaceNbspEntity cs

/-- Global deletion of remaining tags, `.replace(/<[^>]+>/g, '')`: a `<`
followed by at least one non-`>` character up to the next `>`.  Fueled like
`replaceBrTags`. -/
def stripTags : ℕ → List Char → List Char
  | 0, l => l
  | _ + 1, [] => []
  | fuel + 1, c :: cs =>
    if c = '<' then
      match cs.takeWhile (fun x => x != '>'), cs.dropWhile (fun x => x != '>') with
      | _ :: _, _ :: t => stripTags fuel t
      | _, _ => c :: stripTags fuel cs
    else c :: stripTags fuel cs

/-- Function `htmlToText`: turn `<br>`-ish tags into newlines, `&nbsp;`
into spaces, strip remaining tags, replace the no-break-space character by
a plain space, then trim.  Non-string inputs become the empty string at
every call site and are therefore modelled as `""`. -/
def htmlToText (v : String) : String :=
  let l1 := replaceBrTags v.toList.length v.toList
  let l2 := replaceNbspEntity l1
  let l3 := stripTags l2.length l2
  let l4 := l3.map (fun c => if c = ' ' then ' ' else c)
  String.mk (jsTrimList l4)

/-- Delimiters of the people field: comma, newline, Chinese enumeration
comma, ASCII semicolon, full-width semicolon (the class of the regex
`/[,\n、;；]+/g`). -/
def isPeopleDelim (c : Char) : Bool :=
  c = ',' || c = '\n' || c = '、' || c = ';' || c = '；'

/-- Splitting at every delimiter character.  The `+` in the source's regex
only merges adjacent delimiters, which after the empty-part filter below is
observationally the same as splitting at single characters. -/
def splitOnDelims : List Char → List (List Char)
  | [] => [[]]
  | c :: cs =>
    match splitOnDelims cs with
    | [] => [[]]
    | h :: t => if isPeopleDelim c then [] :: h :: t else (c :: h) :: t

/-- Deduplication preserving first-seen order (the `Set`-based loop used in
`splitPeople` and `safeStringArray`); `seen` accumulates already-emitted
values. -/
def dedupFirstAux (seen : List String) : List String → List String
  | [] => []
  | x :: xs =>
    if x ∈ seen then dedupFirstAux seen xs
    else x :: dedupFirstAux (x :: seen) xs

/-- Deduplication preserving first-seen order, starting from no seen
values. -/
def dedupFirst (l : List String) : List String :=
  dedupFirstAux [] l

/-- Function `splitPeople`: trim; an all-whitespace field gives `[]`;
otherwise split on the delimiter class, trim each part, drop empties,
deduplicate keeping the first occurrence. -/
def splitPeople (txt : String) : List String :=
  let s := jsTrim txt
  if s = "" then []
  else
    dedupFirst
      (((splitOnDelims s.toList).map (fun p => jsTrim (String.mk p))).filter
        (fun x => x != ""))

/-! ## String-level date validation (`isValidYmd` / `keyOfYmd` on strings) -/
/-- Matching of the trimmed string against `^(\d{4})-(\d{2})-(\d{2})$` and
conversion of the three digit groups to numbers. -/
def parseYmd (s : String) : Option (ℕ × ℕ × ℕ) :=
  match (jsTrim s).toList with
  | [a, b, c, d, h1, e, f, h2, g, h] =>
    if a.isDigit ∧ b.isDigit ∧ c.isDigit ∧ d.isDigit ∧ h1 = '-' ∧
        e.isDigit ∧ f.isDigit ∧ h2 = '-' ∧ g.isDigit ∧ h.isDigit then
      some ((a.toNat - 48) * 1000 + (b.toNat - 48) * 100 +
              (c.toNat - 48) * 10 + (d.toNat - 48),
            (e.toNat - 48) * 10 + (f.toNat - 48),
            (g.toNat - 48) * 10 + (h.toNat - 48))
    else none
  | _ => none

/-- Function `isValidYmd` on an actual string: regex match, then the digit
checks of `isValidYmdCore` (the triple-level `isValidYmd` above is this
function precomposed with the digit-count bounds the regex guarantees). -/
def isValidYmdStr (s : String) : Bool :=
  match parseYmd s with
  | some (y, m, d) => isValidYmdCore y m d
  | none => false

/-- Function `keyOfYmd` on an actual string: validate, then read the digits
with the dashes removed as one number. -/
def keyOfYmdStr (s : String) : Option ℕ :=
  match parseYmd s with
  | some (y, m, d) =>
    if isValidYmdCore y m d then some (y * 10000 + m * 100 + d) else none
  | none => none

/-! ## Milestone items and the Filter Engine -/
/-- A normalized milestone record (type `MilestoneItem` of the source). -/
structure MilestoneItem where
  content : String
  projectName : String
  people : List String
  startTime : String
  time : String
  completed : Bool
  note_id : ℤ
  block_index : ℤ
  deriving DecidableEq

/-- The fallback bucket label for items without a project
(`i18n.t('未命名项目')`, treated as an opaque constant string). -/
def unnamedProjectLabel : String := "未命名项目"

/-- The fallback bucket label for items without people
(`i18n.t('未指定人员')`). -/
def unassignedPersonLabel : String := "未指定人员"

/-- Method `normalizeProjectName`: the project label, or the unnamed-bucket
fallback when it is empty (falsy). -/
def normalizeProjectName (it : MilestoneItem) : String :=
  if it.projectName = "" then unnamedProjectLabel else it.projectName

/-- Method `normalizePeople`: the people list, or the single unassigned
bucket when it is empty. -/
def normalizePeople (it : MilestoneItem) : List String :=
  if it.people = [] then [unassignedPersonLabel] else it.people

/-- Method `applyFilters`: keep an item unless a non-empty project
selection misses its normalized project, or a non-empty people selection
misses all of its normalized people. -/
def applyFilters (pSel uSel : List String) (items : List MilestoneItem) :
    List MilestoneItem :=
  items.filter (fun it =>
    if 0 < pSel.length ∧ ¬ normalizeProjectName it ∈ pSel then false
    else if 0 < uSel.length ∧ ¬ (normalizePeople it).any (fun p => p ∈ uSel)
      then false
    else true)

/-! ## Record Normalizer (the per-record body of `refresh`) -/
/-- One raw record's data payload as seen by the normalization loop in
`refresh`.  JavaScript distinguishes missing fields and empty strings only
through falsiness here, so both are modelled as `""`. -/
structure RawRecord where
  content : String
  projectName : String
  people : String
  startTime : String
  time : String
  completed : Bool
  note_id : ℤ
  block_index : ℤ
  deriving DecidableEq

/-- The argument of `htmlToText` in
`const start = htmlToText(d.startTime || d.time || '')`: the start field,
substituted by the end field when the start field is missing/empty. -/
def resolvedStartRaw (r : RawRecord) : String :=
  if r.startTime ≠ "" then r.startTime
  else if r.time ≠ "" then r.time
  else ""

/-- The argument of `htmlToText` in
`const end = htmlToText(d.time || d.startTime || '')`. -/
def resolvedEndRaw (r : RawRecord) : String :=
  if r.time ≠ "" then r.time
  else if r.startTime ≠ "" then r.startTime
  else ""

/-- The normalization step of `refresh` for one record: resolve the date
pair, convert both to day-keys, and either drop the record (both keys must
parse and validate) or produce the `MilestoneItem` that is pushed onto the
collection. -/
def processRecord (r : RawRecord) : Option MilestoneItem :=
  let start := htmlToText (resolvedStartRaw r)
  let endS := htmlToText (resolvedEndRaw r)
  match keyOfYmdStr start, keyOfYmdStr endS with
  | some _, some _ =>
    some
      { content := htmlToText r.content
        projectName := htmlToText r.projectName
        people := splitPeople (htmlToText r.people)
        startTime := start
        time := endS
        completed := r.completed
        note_id := r.note_id
        block_index := r.block_index }
  | _, _ => none

/-! ## Persisted state: `validate` and the constructor defaults -/
/-- Loosely-typed JavaScript values as far as `validate`, the constructor
and `safeStringArray` inspect them (strings, numbers, booleans, arrays,
other objects, null).  `NaN` is not representable; it behaves like `0`
(falsy) in every check modelled here. -/
inductive JsVal where
  | str (s : String)
  | num (n : ℤ)
  | boolean (b : Bool)
  | arr (xs : List JsVal)
  | obj
  | nullV

/-- JavaScript truthiness of a value. -/
def truthy : JsVal → Bool
  | .str s => s ≠ ""
  | .num n => n ≠ 0
  | .boolean b => b
  | .arr _ => true
  | .obj => true
  | .nullV => false

/-- Strict equality `v === s` of a loosely-typed value against a string
literal. -/
def isStrLit (v : JsVal) (s : String) : Bool :=
  match v with
  | .str t => t == s
  | _ => false

/-- Check `Array.isArray(v) && !v.some(x => typeof x !== 'string')`: the
value is an array of plain strings. -/
def isStringArray : JsVal → Bool
  | .arr xs => xs.all (fun x => match x with | .str _ => true | _ => false)
  | _ => false

/-- The three fields of the saved block data that `validate` and the
constructor inspect; `none` models an absent/undefined field.  The
`creator` field is deliberately not validated by the source. -/
structure RawSavedData where
  viewMode : Option JsVal
  projectFilters : Option JsVal
  peopleFilters : Option JsVal

/-- Method `validate` of the block tool: reject when `viewMode` is truthy
yet differs from both `'project'` and `'people'`, or a filter field is
present but is not an array, or is an array with a non-string element. -/
def validate (d : RawSavedData) : Bool :=
  let vmFail := match d.viewMode with
    | some v => truthy v && !(isStrLit v "project") && !(isStrLit v "people")
    | none => false
  let pfFailArr := match d.projectFilters with
    | some v => match v with | .arr _ => false | _ => true
    | none => false
  let ufFailArr := match d.peopleFilters with
    | some v => match v with | .arr _ => false | _ => true
    | none => false
  let pfFailElem := match d.projectFilters with
    | some (.arr xs) => xs.any (fun x => match x with | .str _ => false | _ => true)
    | _ => false
  let ufFailElem := match d.peopleFilters with
    | some (.arr xs) => xs.any (fun x => match x with | .str _ => false | _ => true)
    | _ => false
  !(vmFail || pfFailArr || ufFailArr || pfFailElem || ufFailElem)

/-- The two view modes (source type `MilestoneGanttViewMode`, values
`'project' | 'people'`). -/
inductive GanttViewMode where
  | project
  | people
  deriving DecidableEq

/-- The constructor's view-mode restoration:
`(data)?.viewMode === 'people' ? 'people' : 'project'`. -/
def constructorViewMode (d : RawSavedData) : GanttViewMode :=
  match d.viewMode with
  | some v => if isStrLit v "people" then .people else .project
  | none => .project

/-- Function `safeStringArray`, used by the constructor to restore the two
filter selections: non-arrays give `[]`; array elements that are not
strings become `''` and are skipped; strings are trimmed, empties skipped,
and the rest deduplicated keeping first occurrences. -/
def safeStringArray (v : Option JsVal) : List String :=
  match v with
  | some (.arr xs) =>
    dedupFirst
      (((xs.map (fun x => match x with | .str s => jsTrim s | _ => ""))).filter
        (fun s => s != ""))
  | _ => []

/-! ## Day-range enumeration (`eachDayKey`) -/
/-- The integer day-key of a date triple, `y * 10000 + m * 100 + d`. -/
def key3 (x : ℕ × ℕ × ℕ) : ℕ :=
  x.1 * 10000 + x.2.1 * 100 + x.2.2

/-- One loop iteration's `cur.setDate(cur.getDate() + 1)`: increment the
day and let the `Date` setter normalize the overflow (setters do not remap
years). -/
def nextDay (x : ℕ × ℕ × ℕ) : ℕ × ℕ × ℕ :=
  dateNormNoRemap x.1 x.2.1 (x.2.2 + 1)

/-- The `while (cur.getTime() <= b.getTime())` loop of `eachDayKey`: push
the current date's key and step one day.  Midnight timestamps compare
exactly as absolute day numbers, so the guard is stated on `toDayNo3`.
The fuel argument keeps the recursion structural; the caller passes
`endNo + 2 - startNo`, which is provably enough because every iteration
advances the day number by exactly one. -/
def eachDayAux : ℕ → ℕ → ℕ × ℕ × ℕ → List ℕ
  | 0, _, _ => []
  | fuel + 1, endNo, cur =>
    if toDayNo3 cur ≤ endNo then key3 cur :: eachDayAux fuel endNo (nextDay cur)
    else []

/-- Function `eachDayKey`: render both keys back to `"YYYY-MM-DD"` (empty
string, i.e. `none`, unless the key has exactly 8 digits — no calendar
validity check happens here), re-split the digit groups, build the two
`Date` bounds (which silently normalize invalid calendar combinations),
then enumerate day by day, inclusive. -/
def eachDayKey (minKey maxKey : ℕ) : List ℕ :=
  match ymdFromKey minKey, ymdFromKey maxKey with
  | some (y1, m1, d1), some (y2, m2, d2) =>
    let a := jsDateNorm y1 m1 d1
    let b := jsDateNorm y2 m2 d2
    eachDayAux (toDayNo3 b + 2 - toDayNo3 a) (toDayNo3 b) a
  | _, _ => []

/-- A calendar-valid date triple: month in range and day within the
month. -/
def ValidDate (y m d : ℕ) : Prop :=
  1 ≤ m ∧ m ≤ 12 ∧ 1 ≤ d ∧ d ≤ daysInMonth y m

/-- A calendar-valid packed triple. -/
def ValidDate3 (x : ℕ × ℕ × ℕ) : Prop :=
  ValidDate x.1 x.2.1 x.2.2

/-! ## Grouping and row layout (`renderChart`, grouping phase) -/
/-- Stable insertion into a sorted prefix. -/
def insortBy {α : Type} (le : α → α → Bool) (x : α) : List α → List α
  | [] => [x]
  | y :: ys => if le x y then x :: y :: ys else y :: insortBy le x ys

/-- Model of `Array.prototype.sort` with a comparator (stable since
ES2019), as a stable insertion sort over the `le` relation
`comparator(a, b) <= 0`.  The verified properties below only depend on the
result being a permutation of the input, which holds for every comparator. -/
def sortBy {α : Type} (le : α → α → Bool) (l : List α) : List α :=
  l.foldr (insortBy le) []

/-- The group keys one item contributes: its normalized project name in
project view, each of its normalized people in person view (an item is
pushed into `byPerson` once per occurrence). -/
def keysOf (mode : GanttViewMode) (it : MilestoneItem) : List String :=
  match mode with
  | .project => [normalizeProjectName it]
  | .people => normalizePeople it

/-- The bucket a `Map` key `p` accumulates: every item once per occurrence
of `p` among its keys, in encounter order (this is exactly the pushes the
`byProject`/`byPerson` loops perform). -/
def groupItems (mode : GanttViewMode) (p : String)
    (items : List MilestoneItem) : List MilestoneItem :=
  items.flatMap (fun x => List.replicate ((keysOf mode x).count p) x)

/-- The fallback row label for items without content
(`i18n.t('（无内容）')`). -/
def noContentLabel : String := "（无内容）"

/-- One display row: group label, item label, and the single item whose bar
the row renders (the source stores `items: [it]` and only ever reads
`row.items[0]`). -/
structure ChartRow where
  group : String
  label : String
  item : MilestoneItem
  deriving DecidableEq

/-- The row label of an item, `it.content || t('（无内容）')`. -/
def rowLabelOf (it : MilestoneItem) : String :=
  if it.content = "" then noContentLabel else it.content

/-- The grouping phase of `renderChart`: collect the group keys in first
insertion order (JavaScript `Map` iteration order), sort them with the
locale collator (`keyLe`, opaque), and inside every group sort the items by
their `startTime` strings with the default collator (`startLe`, opaque),
emitting one row per item occurrence. -/
def rowsFor (mode : GanttViewMode) (keyLe : String → String → Bool)
    (startLe : String → String → Bool) (items : List MilestoneItem) :
    List ChartRow :=
  (sortBy keyLe (dedupFirst (items.flatMap (keysOf mode)))).flatMap
    (fun p =>
      (sortBy (fun a b => startLe a.startTime b.startTime)
          (groupItems mode p items)).map
        (fun x => ChartRow.mk p (rowLabelOf x) x))

/-- A concrete normalized item used by witnesses: two people, a five-day
span (the spec scenario record). -/
def sampleItem : MilestoneItem :=
  { content := "milestone"
    projectName := "ProjectA"
    people := ["Alice", "Bob"]
    startTime := "2024-03-01"
    time := "2024-03-05"
    completed := false
    note_id := 1
    block_index := 0 }

/-! ## Weekend shading pass of `renderChart` -/
/-- The global min/max day-key scan at the top of `renderChart`: the
order-normalized span `[min(s,e), max(s,e)]` of every item with two
parseable dates contributes to the chart's day range. -/
def chartDayRange (items : List MilestoneItem) : Option (ℕ × ℕ) :=
  items.foldl
    (fun acc it =>
      match keyOfYmdStr it.startTime, keyOfYmdStr it.time with
      | some s, some e =>
        match acc with
        | none => some (min s e, max s e)
        | some (mn, mx) => some (min mn (min s e), max mx (max s e))
      | _, _ => acc)
    none

/-- The weekend-shading loop of `renderChart` (the first paint pass over
`days`): for every day-key, skip it unless its rendered string is
non-empty and its weekday is Saturday or Sunday; for a weekend day the
source then evaluates `rect.setAttribute('fill', weekendFill)` — but
`weekendFill` is not declared anywhere in the file (the CSS variable was
read into `svgWeekend` and never used), so reaching this statement raises
`ReferenceError: weekendFill is not defined` out of `renderChart`.  The
success value collects the painted band columns, which consequently can
only ever be the empty list. -/
def weekendBandsPass : List ℕ → Except String (List ℕ)
  | [] => .ok []
  | k :: rest =>
    match ymdFromKey k with
    | none => weekendBandsPass rest
    | some (y, m, d) =>
      if jsGetDay y m d = 0 ∨ jsGetDay y m d = 6 then
        .error "ReferenceError: weekendFill is not defined"
      else weekendBandsPass rest

/-- A one-item collection whose single day (2024-03-02) is a Saturday. -/
def saturdayItem : MilestoneItem :=
  { content := "w"
    projectName := "P"
    people := ["Alice"]
    startTime := "2024-03-02"
    time := "2024-03-02"
    completed := false
    note_id := 1
    block_index := 0 }

end MilestoneGantt

namespace MilestoneGantt

/-! ## Claim C4: key/date round-trip -/
/-- Claim C4, counterexample: the date (500, 1, 1) is accepted by the
source's validation (`"0500-01-01"` matches the regex and `Date` does not
remap three-digit years), but its day-key 5000101 has only 7 digits, so
`ymdFromKey` rejects it — the round-trip fails on a valid calendar date. -/
theorem keyRoundtripFailsBelowYear1000 :
    isValidYmd 500 1 1 = true ∧
    keyOfYmd 500 1 1 = some 5000101 ∧
    ymdFromKey 5000101 = none := by
  refine ⟨by decide, by decide, by decide⟩

/-- Claim C4, amended: for every date accepted by the source's validation
whose year has four digits (`1000 ≤ y`), converting to the integer day-key
`y*10000 + m*100 + d` and back yields `(y, m, d)` again. -/
theorem keyRoundtripFourDigitYears (y m d : ℕ)
    (hv : isValidYmd y m d = true) (hy : 1000 ≤ y) :
    keyOfYmd y m d = some (y * 10000 + m * 100 + d) ∧
    ymdFromKey (y * 10000 + m * 100 + d) = some (y, m, d) := by
  have hb : y ≤ 9999 ∧ m ≤ 99 ∧ d ≤ 99 := by
    simp only [isValidYmd, Bool.and_eq_true, decide_eq_true_eq] at hv
    exact ⟨hv.1.1.1, hv.1.1.2, hv.1.2⟩
  constructor
  · simp [keyOfYmd, hv]
  · have h1 : 10000000 ≤ y * 10000 + m * 100 + d := by omega
    have h2 : y * 10000 + m * 100 + d ≤ 99999999 := by omega
    simp only [ymdFromKey, if_pos (And.intro h1 h2), Option.some.injEq, Prod.mk.injEq]
    refine ⟨by omega, by omega, by omega⟩

/-- Witness for `keyRoundtripFourDigitYears` at the concrete valid date
2024-03-05. -/
theorem keyRoundtripFourDigitYearsWitness :
    keyOfYmd 2024 3 5 = some 20240305 ∧
    ymdFromKey 20240305 = some (2024, 3, 5) :=
  keyRoundtripFourDigitYears 2024 3 5 (by decide) (by decide)

/-! ## Claim C2: anchor preservation -/
/-- Claim C2: whenever a wheel step actually changes the day width, the new
scroll offset is exactly `f * newDayWidth - cursorX` where
`f = (oldScrollLeft + cursorX) / oldDayWidth` is the fractional day index
under the cursor computed before the rescale, and a re-render is
triggered. -/
theorem onWheelAnchorPreservation (st : PanZoomState) (deltaY mouseX : ℚ)
    (hne : deltaY ≠ 0)
    (hchange : zoomStep st.dayW (decide (deltaY < 0)) ≠ st.dayW) :
    onWheel st true deltaY mouseX =
      ({ dayW := zoomStep st.dayW (decide (deltaY < 0)),
         scrollLeft := (st.scrollLeft + mouseX) / st.dayW *
           (zoomStep st.dayW (decide (deltaY < 0)) : ℚ) - mouseX }, true) := by
  simp [onWheel, hne, hchange]

/-- Witness for `onWheelAnchorPreservation`: day width 18, scroll 100,
cursor at 50, wheel up; the new width is 20 and the restored scroll offset
is (150/18)*20 - 50 = 350/3. -/
theorem onWheelAnchorPreservationWitness :
    onWheel ⟨18, 100⟩ true (-3) 50 = (⟨20, 350 / 3⟩, true) := by
  have hdt : decide ((-3 : ℚ) < 0) = true := decide_eq_true (by norm_num)
  have h := onWheelAnchorPreservation ⟨18, 100⟩ (-3) 50 (by norm_num)
    (by rw [hdt]; decide)
  rw [h, hdt]
  norm_num [zoomStep, clamp, Prod.ext_iff, PanZoomState.mk.injEq]

/-! ## Claim C3: day-width invariant -/
/-- Helper: a single zoom step always lands in [6, 80]. -/
theorem zoomStepMem (d : ℕ) (z : Bool) :
    6 ≤ zoomStep d z ∧ zoomStep d z ≤ 80 := by
  cases z <;> simp [zoomStep, clamp]

/-- Helper: one wheel event either keeps the day width or replaces it by a
zoom step. -/
theorem onWheelDayWCases (st : PanZoomState) (b : Bool) (dy mx : ℚ) :
    (onWheel st b dy mx).1.dayW = st.dayW ∨
    (onWheel st b dy mx).1.dayW = zoomStep st.dayW (decide (dy < 0)) := by
  simp only [onWheel]
  split_ifs
  · exact Or.inl rfl
  · exact Or.inl rfl
  · exact Or.inl rfl
  · exact Or.inr rfl

/-- Claim C3: starting inside [6, 80], the day width stays an integer (it
lives in `ℕ` and every step is rounded) within [6, 80] after any finite
sequence of wheel events, and a step whose clamped rounded value equals the
current width leaves the state untouched and reports no re-render. -/
theorem dayWidthZoomInvariant (st : PanZoomState) (b : Bool)
    (evs : List (ℚ × ℚ)) (h6 : 6 ≤ st.dayW) (h80 : st.dayW ≤ 80) :
    (6 ≤ (wheelEvents b st evs).dayW ∧ (wheelEvents b st evs).dayW ≤ 80) ∧
    (∀ s : PanZoomState, ∀ dy mx : ℚ,
      zoomStep s.dayW (decide (dy < 0)) = s.dayW →
      onWheel s b dy mx = (s, false)) := by
  constructor
  · induction evs generalizing st with
    | nil => exact ⟨h6, h80⟩
    | cons e rest ih =>
      have hstep := onWheelDayWCases st b e.1 e.2
      have hmem := zoomStepMem st.dayW (decide (e.1 < 0))
      have hfold : wheelEvents b st (e :: rest) =
          wheelEvents b (onWheel st b e.1 e.2).1 rest := by
        simp [wheelEvents]
      rw [hfold]
      rcases hstep with h | h
      · exact ih _ (by omega) (by omega)
      · exact ih _ (by omega) (by omega)
  · intro s dy mx hfix
    simp [onWheel, hfix]

/-- Witness for `dayWidthZoomInvariant`: default width 18, a concrete
three-event wheel sequence; also checks the no-op case at the upper clamp
boundary (a zoom-in at width 80 rounds and clamps back to 80, so the
handler leaves the state unchanged and triggers no render). -/
theorem dayWidthZoomInvariantWitness :
    (6 ≤ (wheelEvents true ⟨18, 0⟩ [(-3, 10), (-3, 10), (5, 0)]).dayW ∧
      (wheelEvents true ⟨18, 0⟩ [(-3, 10), (-3, 10), (5, 0)]).dayW ≤ 80) ∧
    onWheel ⟨80, 25⟩ true (-1) 7 = (⟨80, 25⟩, false) := by
  have h := dayWidthZoomInvariant ⟨18, 0⟩ true [(-3, 10), (-3, 10), (5, 0)]
    (by decide) (by decide)
  refine ⟨h.1, ?_⟩
  have hdt : decide ((-1 : ℚ) < 0) = true := decide_eq_true (by norm_num)
  exact h.2 ⟨80, 25⟩ (-1) 7 (by rw [hdt]; decide)

/-! ## Claim C8: people splitter -/
/-- Helper: membership in the first-seen deduplication. -/
theorem memDedupFirstAux (seen l : List String) (x : String) :
    x ∈ dedupFirstAux seen l ↔ x ∈ l ∧ x ∉ seen := by
  induction l generalizing seen with
  | nil => simp [dedupFirstAux]
  | cons y ys ih =>
    by_cases hy : y ∈ seen
    · rw [dedupFirstAux, if_pos hy, ih]
      constructor
      · rintro ⟨hm, hs⟩
        exact ⟨List.mem_cons_of_mem _ hm, hs⟩
      · rintro ⟨hm, hs⟩
        rcases List.mem_cons.mp hm with rfl | hm
        · exact absurd hy hs
        · exact ⟨hm, hs⟩
    · rw [dedupFirstAux, if_neg hy]
      constructor
      · intro hm
        rcases List.mem_cons.mp hm with rfl | hm
        · exact ⟨List.mem_cons_self _ _, hy⟩
        · rw [ih] at hm
          refine ⟨List.mem_cons_of_mem _ hm.1, fun hs => hm.2 ?_⟩
          exact List.mem_cons_of_mem _ hs
      · rintro ⟨hm, hs⟩
        rcases List.mem_cons.mp hm with rfl | hm
        · exact List.mem_cons_self _ _
        · by_cases hxy : x = y
          · subst hxy; exact List.mem_cons_self _ _
          · refine List.mem_cons_of_mem _ ?_
            rw [ih]
            exact ⟨hm, by simp [hxy, hs]⟩

/-- Helper: first-seen deduplication gives duplicate-free output. -/
theorem nodupDedupFirstAux (seen l : List String) :
    (dedupFirstAux seen l).Nodup := by
  induction l generalizing seen with
  | nil => simp [dedupFirstAux]
  | cons y ys ih =>
    by_cases hy : y ∈ seen
    · rw [dedupFirstAux, if_pos hy]; exact ih seen
    · rw [dedupFirstAux, if_neg hy]
      refine List.Nodup.cons ?_ (ih (y :: seen))
      intro hmem
      rw [memDedupFirstAux] at hmem
      exact hmem.2 (List.mem_cons_self _ _)

/-- Helper: deduplicated lists keep exactly the original elements. -/
theorem memDedupFirst (l : List String) (x : String) :
    x ∈ dedupFirst l ↔ x ∈ l := by
  rw [dedupFirst, memDedupFirstAux]
  simp

/-- Claim C8: the people splitter returns a duplicate-free list of
non-empty trimmed parts (splitting on comma, newline, Chinese enumeration
comma and both semicolons), preserving first-seen order; on the concrete
input "Alice, Bob, Alice" it returns ["Alice", "Bob"]. -/
theorem splitPeopleSpec (s : String) :
    (splitPeople s).Nodup ∧
    (∀ x ∈ splitPeople s, x ≠ "") ∧
    splitPeople "Alice, Bob, Alice" = ["Alice", "Bob"] := by
  refine ⟨?_, ?_, by decide⟩
  · rw [splitPeople]
    split
    · exact List.nodup_nil
    · exact nodupDedupFirstAux _ _
  · intro x hx
    rw [splitPeople] at hx
    split at hx
    · simp at hx
    · rw [dedupFirst, memDedupFirstAux] at hx
      have := List.of_mem_filter hx.1
      simpa using this

/-! ## Claim C6: compound filtering -/
/-- Claim C6: an item is kept iff (the project selection is empty or
contains its normalized project) and (the people selection is empty or
meets at least one of its normalized people); empty selections keep all
items unchanged in order, and filtering is idempotent. -/
theorem applyFiltersSpec (items : List MilestoneItem)
    (pSel uSel : List String) :
    (∀ it : MilestoneItem, it ∈ applyFilters pSel uSel items ↔
      it ∈ items ∧ (pSel = [] ∨ normalizeProjectName it ∈ pSel) ∧
        (uSel = [] ∨ ∃ p ∈ normalizePeople it, p ∈ uSel)) ∧
    applyFilters [] [] items = items ∧
    applyFilters pSel uSel (applyFilters pSel uSel items) =
      applyFilters pSel uSel items := by
  refine ⟨?_, ?_, ?_⟩
  · intro it
    rw [applyFilters, List.mem_filter]
    constructor
    · rintro ⟨hm, hp⟩
      refine ⟨hm, ?_⟩
      by_cases h1 : 0 < pSel.length ∧ ¬ normalizeProjectName it ∈ pSel
      · rw [if_pos h1] at hp; exact absurd hp (by simp)
      · rw [if_neg h1] at hp
        by_cases h2 :
            0 < uSel.length ∧ ¬ (normalizePeople it).any (fun p => p ∈ uSel)
        · rw [if_pos h2] at hp; exact absurd hp (by simp)
        · push_neg at h1 h2
          constructor
          · rcases Nat.eq_zero_or_pos pSel.length with hz | hz
            · exact Or.inl (List.eq_nil_of_length_eq_zero hz)
            · exact Or.inr (h1 hz)
          · rcases Nat.eq_zero_or_pos uSel.length with hz | hz
            · exact Or.inl (List.eq_nil_of_length_eq_zero hz)
            · refine Or.inr ?_
              have := h2 hz
              simpa [List.any_eq_true] using this
    · rintro ⟨hm, hcl⟩
      refine ⟨hm, ?_⟩
      have h1 : ¬ (0 < pSel.length ∧ ¬ normalizeProjectName it ∈ pSel) := by
        rcases hcl.1 with h | h
        · simp [h]
        · simp [h]
      have h2 :
          ¬ (0 < uSel.length ∧
              ¬ (normalizePeople it).any (fun p => p ∈ uSel)) := by
        rcases hcl.2 with h | h
        · simp [h]
        · rcases h with ⟨p, hp1, hp2⟩
          have : (normalizePeople it).any (fun p => p ∈ uSel) = true := by
            rw [List.any_eq_true]
            exact ⟨p, hp1, by simpa using hp2⟩
          simp [this]
      rw [if_neg h1, if_neg h2]
  · show List.filter _ items = items
    rw [List.filter_eq_self]
    intro a _
    simp
  · show List.filter _ (List.filter _ items) = List.filter _ items
    rw [List.filter_filter]
    congr 1
    funext it
    exact Bool.and_self _

/-! ## Claim C7: date resolution and strict validation -/
/-- Helper: a string converts to a day-key exactly when it passes
validation. -/
theorem keyOfYmdStrIsSome (t : String) :
    (keyOfYmdStr t).isSome = true ↔ isValidYmdStr t = true := by
  rcases hp : parseYmd t with _ | ⟨y, m, d⟩ <;>
    rw [keyOfYmdStr, isValidYmdStr, hp]
  · simp
  · cases h : isValidYmdCore y m d <;> simp [h]

/-- Claim C7: a missing date field is substituted by the other one; a
record yields an item exactly when both resolved date strings pass the
strict YYYY-MM-DD validation; and that validation rejects overflowed dates
such as 2024-02-30 instead of normalizing them. -/
theorem processRecordDateResolution (r : RawRecord) :
    resolvedStartRaw r = (if r.startTime = "" then r.time else r.startTime) ∧
    resolvedEndRaw r = (if r.time = "" then r.startTime else r.time) ∧
    ((processRecord r).isSome = true ↔
      isValidYmdStr (htmlToText (resolvedStartRaw r)) = true ∧
        isValidYmdStr (htmlToText (resolvedEndRaw r)) = true) ∧
    keyOfYmdStr "2024-02-30" = none := by
  refine ⟨?_, ?_, ?_, by decide⟩
  · rw [resolvedStartRaw]
    by_cases h1 : r.startTime = "" <;> by_cases h2 : r.time = "" <;>
      simp [h1, h2]
  · rw [resolvedEndRaw]
    by_cases h1 : r.startTime = "" <;> by_cases h2 : r.time = "" <;>
      simp [h1, h2]
  · have hmain : (processRecord r).isSome =
        ((keyOfYmdStr (htmlToText (resolvedStartRaw r))).isSome &&
          (keyOfYmdStr (htmlToText (resolvedEndRaw r))).isSome) := by
      simp only [processRecord]
      rcases keyOfYmdStr (htmlToText (resolvedStartRaw r)) with _ | k1 <;>
        rcases keyOfYmdStr (htmlToText (resolvedEndRaw r)) with _ | k2 <;> rfl
    rw [hmain, Bool.and_eq_true]
    exact and_congr (keyOfYmdStrIsSome _) (keyOfYmdStrIsSome _)

/-! ## Claim C10: load-time validation of persisted state -/
/-- Claim C10, counterexample: a present `viewMode` holding the empty
string is not one of the two allowed values, yet `validate` accepts the
state, because the source only rejects truthy mismatching values
(`if (vm && vm !== 'project' && vm !== 'people')`). -/
theorem validateAcceptsFalsyViewMode :
    validate ⟨some (.str ""), none, none⟩ = true ∧
    (⟨some (.str ""), none, none⟩ : RawSavedData).viewMode.isSome = true ∧
    isStrLit (JsVal.str "") "project" = false ∧
    isStrLit (JsVal.str "") "people" = false := by
  refine ⟨by decide, by decide, by decide, by decide⟩

/-- Helper: the per-element non-string test of `validate` is the negation
of the per-element string test of `isStringArray`. -/
theorem nonStringTestIffNotStringTest (x : JsVal) :
    ((match x with | .str _ => false | _ => true) = true) ↔
    ((match x with | .str _ => true | _ => false) = false) := by
  rcases x with s | n | b | ys | _ | _ <;> simp

/-- Claim C10, amended: `validate` rejects exactly when `viewMode` is
present with a truthy value different from both allowed values, or a
selection field is present but is not a list of plain strings; a state
with all fields absent is accepted and the constructor defaults it to the
project view with empty (= "all") selections. -/
theorem validateSpec (d : RawSavedData) :
    (validate d = false ↔
      (∃ v, d.viewMode = some v ∧ truthy v = true ∧
        v ≠ .str "project" ∧ v ≠ .str "people") ∨
      (∃ v, d.projectFilters = some v ∧ isStringArray v = false) ∨
      (∃ v, d.peopleFilters = some v ∧ isStringArray v = false)) ∧
    validate ⟨none, none, none⟩ = true ∧
    constructorViewMode ⟨none, none, none⟩ = .project ∧
    safeStringArray none = [] := by
  refine ⟨?_, by decide, by decide, by decide⟩
  obtain ⟨vm, pf, uf⟩ := d
  have hlit : ∀ (v : JsVal) (s : String),
      isStrLit v s = false ↔ v ≠ .str s := by
    rintro (t | n | b | xs | _ | _) s <;> simp [isStrLit]
  have hvm : ((match vm with
      | some v =>
        truthy v && !(isStrLit v "project") && !(isStrLit v "people")
      | none => false) = true) ↔
      (∃ v, vm = some v ∧ truthy v = true ∧
        v ≠ .str "project" ∧ v ≠ .str "people") := by
    rcases vm with _ | v
    · simp
    · simp [Bool.and_eq_true, Bool.not_eq_true', hlit, and_assoc]
  have hsel : ∀ w : Option JsVal,
      (((match w with
          | some v => match v with | .arr _ => false | _ => true
          | none => false) = true) ∨
        ((match w with
          | some (.arr xs) =>
            xs.any (fun x => match x with | .str _ => false | _ => true)
          | _ => false) = true)) ↔
      (∃ v, w = some v ∧ isStringArray v = false) := by
    rintro (_ | v)
    · simp
    · rcases v with s | n | b | xs | _ | _ <;>
        simp [isStringArray, nonStringTestIffNotStringTest]
  simp only [validate, Bool.not_eq_false', Bool.or_eq_true]
  constructor
  · rintro ((((h | h) | h) | h) | h)
    · exact Or.inl (hvm.mp h)
    · exact Or.inr (Or.inl ((hsel pf).mp (Or.inl h)))
    · exact Or.inr (Or.inr ((hsel uf).mp (Or.inl h)))
    · exact Or.inr (Or.inl ((hsel pf).mp (Or.inr h)))
    · exact Or.inr (Or.inr ((hsel uf).mp (Or.inr h)))
  · rintro (h | h | h)
    · exact Or.inl (Or.inl (Or.inl (Or.inl (hvm.mpr h))))
    · rcases (hsel pf).mpr h with h | h
      · exact Or.inl (Or.inl (Or.inl (Or.inr h)))
      · exact Or.inl (Or.inr h)
    · rcases (hsel uf).mpr h with h | h
      · exact Or.inl (Or.inl (Or.inr h))
      · exact Or.inr h

/-! ## Calendar arithmetic lemmas -/
/-- Helper: the year-start day count advances by the year length. -/
theorem daysToYearStartSucc (y : ℕ) :
    daysToYearStart (y + 1) =
      daysToYearStart y + (if isLeap y then 366 else 365) := by
  unfold daysToYearStart isLeap
  split <;> rename_i hb <;>
    simp only [Bool.or_eq_true, Bool.and_eq_true, beq_iff_eq, bne_iff_ne,
      ne_eq] at hb <;>
    omega

/-- Helper: months bound their day counts by 28 and 31. -/
theorem daysInMonthBounds (y m : ℕ) :
    28 ≤ daysInMonth y m ∧ daysInMonth y m ≤ 31 := by
  unfold daysInMonth
  split <;> first | omega | (split <;> omega)

/-- Helper: the before-month day count advances by the month length. -/
theorem daysBeforeMonthSucc (y m : ℕ) (h1 : 1 ≤ m) (h2 : m ≤ 11) :
    daysBeforeMonth y (m + 1) = daysBeforeMonth y m + daysInMonth y m := by
  interval_cases m <;> cases hb : isLeap y <;>
    simp [daysBeforeMonth, daysInMonth, hb]

/-- Helper: a valid day offset stays within the year length. -/
theorem daysBeforeMonthAddDayLe (y m d : ℕ) (h : ValidDate y m d) :
    daysBeforeMonth y m + d ≤ (if isLeap y then 366 else 365) := by
  obtain ⟨h1, h2, h3, h4⟩ := h
  interval_cases m <;> cases hb : isLeap y <;>
    simp [daysBeforeMonth, daysInMonth, hb] at h4 ⊢ <;> omega

/-- Helper: the before-month count is monotone in the month. -/
theorem daysBeforeMonthMono (y m1 m2 : ℕ) (h1 : 1 ≤ m1) (hm : m1 ≤ m2)
    (h2 : m2 ≤ 12) : daysBeforeMonth y m1 ≤ daysBeforeMonth y m2 := by
  have h12 : m1 ≤ 12 := le_trans hm h2
  cases hb : isLeap y <;> interval_cases m1 <;> interval_cases m2 <;>
    simp [daysBeforeMonth, hb]

/-- Helper: the year-start count is monotone. -/
theorem daysToYearStartMono (y1 y2 : ℕ) (h : y1 ≤ y2) :
    daysToYearStart y1 ≤ daysToYearStart y2 := by
  induction y2 with
  | zero =>
    have hz : y1 = 0 := by omega
    subst hz
    exact Nat.le_refl _
  | succ n ih =>
    by_cases hend : y1 = n + 1
    · subst hend
      exact Nat.le_refl _
    · have hy : y1 ≤ n := by omega
      have hrec := ih hy
      have hs := daysToYearStartSucc n
      split at hs <;> omega

/-- Helper: a valid date's day number falls before the next year start. -/
theorem toDayNoLtNextYear (y m d : ℕ) (h : ValidDate y m d) :
    toDayNo y m d < daysToYearStart (y + 1) := by
  have hb := daysBeforeMonthAddDayLe y m d h
  have hs := daysToYearStartSucc y
  have hd : 1 ≤ d := h.2.2.1
  unfold toDayNo
  split at hb <;> split at hs <;> omega

/-- Helper: the day number is strictly monotone with the chronological
(lexicographic) order on valid dates. -/
theorem toDayNoStrictMono (y1 m1 d1 y2 m2 d2 : ℕ)
    (h1 : ValidDate y1 m1 d1) (h2 : ValidDate y2 m2 d2)
    (hlex : y1 < y2 ∨ (y1 = y2 ∧ (m1 < m2 ∨ (m1 = m2 ∧ d1 < d2)))) :
    toDayNo y1 m1 d1 < toDayNo y2 m2 d2 := by
  obtain ⟨h11, h12, h13, h14⟩ := h1
  obtain ⟨h21, h22, h23, h24⟩ := h2
  rcases hlex with hy | ⟨rfl, hm | ⟨rfl, hd⟩⟩
  · have hlt := toDayNoLtNextYear y1 m1 d1 ⟨h11, h12, h13, h14⟩
    have hmono := daysToYearStartMono (y1 + 1) y2 (by omega)
    unfold toDayNo at hlt ⊢
    omega
  · have hstep := daysBeforeMonthSucc y1 m1 h11 (by omega : m1 ≤ 11)
    have hmono := daysBeforeMonthMono y1 (m1 + 1) m2 (by omega) (by omega) h22
    unfold toDayNo
    omega
  · unfold toDayNo
    omega

/-! ## Normalization lemmas -/
/-- Helper: in-range months are fixed by the month fold. -/
theorem monthNormId (y m : ℕ) (h1 : 1 ≤ m) (h2 : m ≤ 12) :
    monthNorm y m = (y, m) := by
  have hlt : m - 1 < 12 := by omega
  rw [monthNorm, if_neg (by omega)]
  rw [Nat.div_eq_of_lt hlt, Nat.mod_eq_of_lt hlt]
  refine Prod.ext rfl (by omega)

/-- Helper: day rolling with positive fuel stops at once on an in-range
day. -/
theorem dayRollStop (fuel y m d : ℕ) (hf : 1 ≤ fuel)
    (h : d ≤ daysInMonth y m) : dayRoll fuel y m d = (y, m, d) := by
  obtain ⟨f, rfl⟩ : ∃ f, fuel = f + 1 := ⟨fuel - 1, by omega⟩
  simp [dayRoll, h]

/-- Helper: valid dates are fixed points of setter normalization. -/
theorem dateNormNoRemapValidId (y m d : ℕ) (h : ValidDate y m d) :
    dateNormNoRemap y m d = (y, m, d) := by
  obtain ⟨h1, h2, h3, h4⟩ := h
  rw [dateNormNoRemap, monthNormId y m h1 h2]
  simp only [if_neg (by omega : ¬ d = 0)]
  exact dayRollStop d y m d h3 h4

/-- Helper: valid dates with at least three-digit years are fixed points
of the full `Date` constructor normalization. -/
theorem jsDateNormValidId (y m d : ℕ) (hy : 100 ≤ y) (h : ValidDate y m d) :
    jsDateNorm y m d = (y, m, d) := by
  rw [jsDateNorm, jsDateYear, if_neg (by omega)]
  exact dateNormNoRemapValidId y m d h

/-- Helper: day rolling never moves to an earlier month slot (months are
counted as `12 * year + month`), and keeps the month in range. -/
theorem dayRollMonthSlot (fuel y m d : ℕ) (hm1 : 1 ≤ m) (hm2 : m ≤ 12) :
    (12 * y + m ≤
        12 * (dayRoll fuel y m d).1 + (dayRoll fuel y m d).2.1) ∧
      1 ≤ (dayRoll fuel y m d).2.1 ∧ (dayRoll fuel y m d).2.1 ≤ 12 := by
  induction fuel generalizing y m d with
  | zero => simp [dayRoll]; omega
  | succ n ih =>
    rw [dayRoll]
    split
    · simp; omega
    · have hr1 : 1 ≤ (rollMonth y m).2 ∧ (rollMonth y m).2 ≤ 12 := by
        rw [rollMonth]; split <;> simp <;> omega
      have hr2 : 12 * y + m + 1 = 12 * (rollMonth y m).1 + (rollMonth y m).2 := by
        rw [rollMonth]; split <;> simp <;> omega
      have := ih (rollMonth y m).1 (rollMonth y m).2 (d - daysInMonth y m)
        hr1.1 hr1.2
      omega

/-- Helper: if normalization fixes `(y, m, d)` for an in-range month, the
day was in range, i.e. the date is calendar-valid (this is the converse
direction of the `isValidYmd` round-trip check). -/
theorem validOfNormFixed (y m d : ℕ) (hm1 : 1 ≤ m) (hm2 : m ≤ 12)
    (h : dateNormNoRemap y m d = (y, m, d)) : ValidDate y m d := by
  rw [dateNormNoRemap, monthNormId y m hm1 hm2] at h
  by_cases hd0 : d = 0
  · exfalso
    rw [if_pos hd0] at h
    have hb1 := daysInMonthBounds y (m - 1)
    have hb2 := daysInMonthBounds (y - 1) 12
    rw [prevMonthEnd] at h
    split at h
    all_goals
      have h22 := congrArg (fun x : ℕ × ℕ × ℕ => x.2.2) h
      simp at h22
      omega
  · rw [if_neg hd0] at h
    by_cases hin : d ≤ daysInMonth y m
    · exact ⟨hm1, hm2, by omega, hin⟩
    · exfalso
      obtain ⟨d', rfl⟩ : ∃ d', d = d' + 1 := ⟨d - 1, by omega⟩
      rw [dayRoll, if_neg hin] at h
      have hr1 : 1 ≤ (rollMonth y m).2 ∧ (rollMonth y m).2 ≤ 12 := by
        rw [rollMonth]; split <;> simp <;> omega
      have hr2 : 12 * y + m + 1 = 12 * (rollMonth y m).1 + (rollMonth y m).2 := by
        rw [rollMonth]; split <;> simp <;> omega
      have hslot := dayRollMonthSlot d' (rollMonth y m).1 (rollMonth y m).2
        (d' + 1 - daysInMonth y m) hr1.1 hr1.2
      have hy := congrArg (fun x : ℕ × ℕ × ℕ => x.1) h
      have hm := congrArg (fun x : ℕ × ℕ × ℕ => x.2.1) h
      simp at hy hm
      omega

/-- Helper: stepping a valid date gives a valid date with the next day
number. -/
theorem nextDayStep (y m d : ℕ) (h : ValidDate y m d) :
    ValidDate3 (nextDay (y, m, d)) ∧
      toDayNo3 (nextDay (y, m, d)) = toDayNo y m d + 1 := by
  obtain ⟨h1, h2, h3, h4⟩ := h
  have hdim := daysInMonthBounds y m
  rw [nextDay]
  simp only []
  rw [dateNormNoRemap, monthNormId y m h1 h2]
  simp only [if_neg (by omega : ¬ d + 1 = 0)]
  by_cases hin : d + 1 ≤ daysInMonth y m
  · rw [dayRollStop (d + 1) y m (d + 1) (by omega) hin]
    refine ⟨?_, ?_⟩
    · show ValidDate y m (d + 1)
      exact ⟨h1, h2, by omega, hin⟩
    · show toDayNo y m (d + 1) = toDayNo y m d + 1
      simp only [toDayNo]
      omega
  · have hd : d = daysInMonth y m := by omega
    rw [dayRoll]
    rw [if_neg hin]
    have hrem : d + 1 - daysInMonth y m = 1 := by omega
    rw [hrem]
    by_cases hm12 : m = 12
    · subst hm12
      have hroll1 : (rollMonth y 12).1 = y + 1 := by simp [rollMonth]
      have hroll2 : (rollMonth y 12).2 = 1 := by simp [rollMonth]
      rw [hroll1, hroll2]
      have hb1 := daysInMonthBounds (y + 1) 1
      rw [dayRollStop d (y + 1) 1 1 (by omega) (by omega)]
      refine ⟨?_, ?_⟩
      · show ValidDate (y + 1) 1 1
        exact ⟨by omega, by omega, by omega, by omega⟩
      show toDayNo (y + 1) 1 1 = toDayNo y 12 d + 1
      simp only [toDayNo]
      have h12 : daysInMonth y 12 = 31 := rfl
      have hsum : daysToYearStart (y + 1) + daysBeforeMonth (y + 1) 1 =
          daysToYearStart y + daysBeforeMonth y 12 + 31 := by
        have hs := daysToYearStartSucc y
        cases hb : isLeap y <;> rw [hb] at hs <;>
          simp [daysBeforeMonth, hb] at hs ⊢ <;> omega
      omega
    · have hroll1 : (rollMonth y m).1 = y := by
        rw [rollMonth, if_neg (by omega : ¬ 12 ≤ m)]
      have hroll2 : (rollMonth y m).2 = m + 1 := by
        rw [rollMonth, if_neg (by omega : ¬ 12 ≤ m)]
      rw [hroll1, hroll2]
      have hb1 := daysInMonthBounds y (m + 1)
      rw [dayRollStop d y (m + 1) 1 (by omega) (by omega)]
      refine ⟨?_, ?_⟩
      · show ValidDate y (m + 1) 1
        exact ⟨by omega, by omega, by omega, by omega⟩
      show toDayNo y (m + 1) 1 = toDayNo y m d + 1
      simp only [toDayNo]
      have hstep := daysBeforeMonthSucc y m h1 (by omega)
      omega

/-! ## Enumeration loop lemmas -/
/-- Helper: the loop body is skipped entirely past the end bound. -/
theorem eachDayAuxPastEnd (fuel endNo : ℕ) (cur : ℕ × ℕ × ℕ)
    (h : endNo < toDayNo3 cur) : eachDayAux fuel endNo cur = [] := by
  cases fuel with
  | zero => rfl
  | succ n => rw [eachDayAux, if_neg (by omega)]

/-- Helper: with sufficient fuel the loop emits one key per day of the
inclusive range. -/
theorem eachDayAuxLength (fuel endNo : ℕ) (cur : ℕ × ℕ × ℕ)
    (hv : ValidDate3 cur) (hle : toDayNo3 cur ≤ endNo)
    (hf : endNo + 1 - toDayNo3 cur ≤ fuel) :
    (eachDayAux fuel endNo cur).length = endNo + 1 - toDayNo3 cur := by
  induction fuel generalizing cur with
  | zero => omega
  | succ n ih =>
    obtain ⟨cy, cm, cd⟩ := cur
    have hcur : toDayNo3 (cy, cm, cd) = toDayNo cy cm cd := rfl
    have hnext := nextDayStep cy cm cd hv
    rw [eachDayAux, if_pos hle]
    simp only [List.length_cons]
    by_cases hend : toDayNo cy cm cd = endNo
    · rw [eachDayAuxPastEnd n endNo (nextDay (cy, cm, cd)) (by omega)]
      simp only [List.length_nil]
      omega
    · rw [ih (nextDay (cy, cm, cd)) hnext.1 (by omega) (by omega)]
      omega

/-- Helper: a one-day range emits exactly the single key. -/
theorem eachDayAuxSingleton (fuel endNo : ℕ) (cur : ℕ × ℕ × ℕ)
    (hv : ValidDate3 cur) (hd : toDayNo3 cur = endNo) (hf : 1 ≤ fuel) :
    eachDayAux fuel endNo cur = [key3 cur] := by
  obtain ⟨f, rfl⟩ : ∃ f, fuel = f + 1 := ⟨fuel - 1, by omega⟩
  obtain ⟨cy, cm, cd⟩ := cur
  have hnext := nextDayStep cy cm cd hv
  have hcur : toDayNo3 (cy, cm, cd) = toDayNo cy cm cd := rfl
  rw [eachDayAux, if_pos (by omega)]
  rw [eachDayAuxPastEnd f endNo (nextDay (cy, cm, cd)) (by omega)]

/-- Helper: extracting the calendar facts packed into a successful
`isValidYmd` check (for at least three-digit years). -/
theorem validDateOfIsValidYmd (y m d : ℕ) (h : isValidYmd y m d = true)
    (hy : 100 ≤ y) :
    ValidDate y m d ∧ y ≤ 9999 ∧ m ≤ 99 ∧ d ≤ 99 := by
  simp only [isValidYmd, isValidYmdCore, Bool.and_eq_true,
    decide_eq_true_eq] at h
  obtain ⟨⟨⟨hy9, hm9⟩, hd9⟩, ⟨hm1, hm2⟩, hnorm⟩ := h
  rw [jsDateNorm, jsDateYear, if_neg (by omega)] at hnorm
  exact ⟨validOfNormFixed y m d hm1 hm2 hnorm, hy9, hm9, hd9⟩

/-- Helper: the 8-digit key of a four-digit-year date splits back into its
digit groups. -/
theorem ymdFromKeyOfKey3 (y m d : ℕ) (hy : 1000 ≤ y) (hy9 : y ≤ 9999)
    (hm : m ≤ 99) (hd : d ≤ 99) :
    ymdFromKey (key3 (y, m, d)) = some (y, m, d) := by
  have hkey : key3 (y, m, d) = y * 10000 + m * 100 + d := rfl
  rw [hkey, ymdFromKey, if_pos (by omega)]
  simp only [Option.some.injEq, Prod.mk.injEq]
  refine ⟨by omega, by omega, by omega⟩

/-! ## Claim C5: day-range enumeration -/
/-- Claim C5, counterexample: 20240230 is not a valid calendar day-key
(February 30th fails the source's own validation), yet
`eachDayKey(20240230, 20240302)` is not empty — the `Date` constructor
silently normalizes the bound to 2024-03-01 and the enumeration returns
[20240301, 20240302]. -/
theorem eachDayKeyNormalizesInvalidKey :
    isValidYmd 2024 2 30 = false ∧
    ymdFromKey 20240230 = some (2024, 2, 30) ∧
    eachDayKey 20240230 20240302 = [20240301, 20240302] := by
  refine ⟨by decide, by decide, by decide⟩

/-- Claim C5, amended: the enumeration is empty when a bound does not have
exactly 8 decimal digits or when the start lies after the end; an 8-digit
key that encodes an invalid calendar date is however calendar-normalized
rather than rejected.  For bounds that pass the source's date validation
(with four-digit years): a one-key range yields exactly that key,
numerically reversed bounds yield the empty list, and the length of the
enumeration is the inclusive day count between the two dates (as absolute
day numbers), as shown concretely for 2024-02-28 .. 2024-03-01 which has
length 3 and contains the leap day 20240229. -/
theorem eachDayKeyValidRangeSpec (y1 m1 d1 y2 m2 d2 : ℕ)
    (hv1 : isValidYmd y1 m1 d1 = true) (hv2 : isValidYmd y2 m2 d2 = true)
    (hy1 : 1000 ≤ y1) (hy2 : 1000 ≤ y2) :
    (∀ k k' : ℕ, ¬ (10000000 ≤ k ∧ k ≤ 99999999) →
      eachDayKey k k' = [] ∧ eachDayKey k' k = []) ∧
    (key3 (y1, m1, d1) ≤ key3 (y2, m2, d2) →
      (eachDayKey (key3 (y1, m1, d1)) (key3 (y2, m2, d2))).length =
        toDayNo y2 m2 d2 + 1 - toDayNo y1 m1 d1) ∧
    (key3 (y2, m2, d2) < key3 (y1, m1, d1) →
      eachDayKey (key3 (y1, m1, d1)) (key3 (y2, m2, d2)) = []) ∧
    eachDayKey (key3 (y1, m1, d1)) (key3 (y1, m1, d1)) = [key3 (y1, m1, d1)] ∧
    (eachDayKey 20240228 20240301).length = 3 ∧
    20240229 ∈ eachDayKey 20240228 20240301 := by
  obtain ⟨hvd1, hy91, hm91, hd91⟩ := validDateOfIsValidYmd y1 m1 d1 hv1 (by omega)
  obtain ⟨hvd2, hy92, hm92, hd92⟩ := validDateOfIsValidYmd y2 m2 d2 hv2 (by omega)
  have hk1 := ymdFromKeyOfKey3 y1 m1 d1 hy1 hy91 hm91 hd91
  have hk2 := ymdFromKeyOfKey3 y2 m2 d2 hy2 hy92 hm92 hd92
  have hn1 : jsDateNorm y1 m1 d1 = (y1, m1, d1) :=
    jsDateNormValidId y1 m1 d1 (by omega) hvd1
  have hn2 : jsDateNorm y2 m2 d2 = (y2, m2, d2) :=
    jsDateNormValidId y2 m2 d2 (by omega) hvd2
  have hkey1 : key3 (y1, m1, d1) = y1 * 10000 + m1 * 100 + d1 := rfl
  have hkey2 : key3 (y2, m2, d2) = y2 * 10000 + m2 * 100 + d2 := rfl
  have ht1 : toDayNo3 (y1, m1, d1) = toDayNo y1 m1 d1 := rfl
  have ht2 : toDayNo3 (y2, m2, d2) = toDayNo y2 m2 d2 := rfl
  refine ⟨?_, ?_, ?_, ?_, by decide, by decide⟩
  · intro k k' hk
    have hnone : ymdFromKey k = none := by rw [ymdFromKey, if_neg hk]
    constructor
    · simp [eachDayKey, hnone]
    · rcases hsnd : ymdFromKey k' with _ | trip
      · simp [eachDayKey, hnone, hsnd]
      · simp [eachDayKey, hnone, hsnd]
  · intro hle
    have hord : toDayNo y1 m1 d1 ≤ toDayNo y2 m2 d2 := by
      have hcases : (y1 = y2 ∧ m1 = m2 ∧ d1 = d2) ∨
          (y1 < y2 ∨ (y1 = y2 ∧ (m1 < m2 ∨ (m1 = m2 ∧ d1 < d2)))) := by
        rw [hkey1, hkey2] at hle
        omega
      rcases hcases with ⟨rfl, rfl, rfl⟩ | hstrict
      · exact Nat.le_refl _
      · exact Nat.le_of_lt
          (toDayNoStrictMono y1 m1 d1 y2 m2 d2 hvd1 hvd2 hstrict)
    simp only [eachDayKey, hk1, hk2]
    rw [hn1, hn2, ht1, ht2]
    exact eachDayAuxLength _ _ (y1, m1, d1) hvd1 hord (by omega)
  · intro hgt
    have hstrict : toDayNo y2 m2 d2 < toDayNo y1 m1 d1 := by
      have hcases : y2 < y1 ∨ (y2 = y1 ∧ (m2 < m1 ∨ (m2 = m1 ∧ d2 < d1))) := by
        rw [hkey1, hkey2] at hgt
        omega
      exact toDayNoStrictMono y2 m2 d2 y1 m1 d1 hvd2 hvd1 hcases
    simp only [eachDayKey, hk1, hk2]
    rw [hn1, hn2, ht1, ht2]
    exact eachDayAuxPastEnd _ _ (y1, m1, d1) (by rw [ht1]; omega)
  · simp only [eachDayKey, hk1]
    rw [hn1]
    exact eachDayAuxSingleton _ _ (y1, m1, d1) hvd1 rfl (by omega)

/-- Witness for `eachDayKeyValidRangeSpec` at the valid bounds 2024-02-28
and 2024-03-01: the enumeration has the inclusive day count as its length
and a one-day range yields the single key. -/
theorem eachDayKeyValidRangeSpecWitness :
    (eachDayKey (key3 (2024, 2, 28)) (key3 (2024, 3, 1))).length =
      toDayNo 2024 3 1 + 1 - toDayNo 2024 2 28 ∧
    eachDayKey (key3 (2024, 2, 28)) (key3 (2024, 2, 28)) =
      [key3 (2024, 2, 28)] := by
  have h := eachDayKeyValidRangeSpec 2024 2 28 2024 3 1
    (by decide) (by decide) (by decide) (by decide)
  exact ⟨h.2.1 (by decide), h.2.2.2.1⟩

/-! ## Permutation and counting lemmas for rows -/
/-- Helper: insertion produces a permutation of consing. -/
theorem insortByPerm {α : Type} (le : α → α → Bool) (x : α) (l : List α) :
    List.Perm (insortBy le x l) (x :: l) := by
  induction l with
  | nil => exact List.Perm.refl _
  | cons y ys ih =>
    rw [insortBy]
    split
    · exact List.Perm.refl _
    · exact List.Perm.trans (List.Perm.cons y ih) (List.Perm.swap x y ys)

/-- Helper: sorting permutes its input. -/
theorem sortByPerm {α : Type} (le : α → α → Bool) (l : List α) :
    List.Perm (sortBy le l) l := by
  induction l with
  | nil => exact List.Perm.refl _
  | cons x xs ih =>
    exact List.Perm.trans (insortByPerm le x (sortBy le xs))
      (List.Perm.cons x ih)

/-- Helper: counting over a concatenation of per-element blocks. -/
theorem countPFlatMap {α β : Type} (l : List α) (f : α → List β)
    (p : β → Bool) :
    (l.flatMap f).countP p = (l.map (fun a => (f a).countP p)).sum := by
  induction l with
  | nil => simp
  | cons x xs ih => simp [List.flatMap_cons, List.countP_append, ih]

/-- Helper: multiplicity of an item inside a group bucket. -/
theorem groupItemsCount (mode : GanttViewMode) (p : String)
    (items : List MilestoneItem) (it : MilestoneItem) :
    (groupItems mode p items).count it =
      items.count it * ((keysOf mode it).count p) := by
  induction items with
  | nil => simp [groupItems]
  | cons x xs ih =>
    have hstep : groupItems mode p (x :: xs) =
        List.replicate ((keysOf mode x).count p) x ++ groupItems mode p xs :=
      rfl
    rw [hstep, List.count_append, ih]
    by_cases hx : x = it
    · subst hx
      rw [List.count_replicate_self, List.count_cons_self]
      ring
    · rw [List.count_replicate, if_neg (by simpa using hx),
        List.count_cons_of_ne (fun he => hx he.symm)]
      omega

/-- Helper: summing an indicator over a duplicate-free key list. -/
theorem sumIfMemNodup (q : String) (c : ℕ) (keys : List String)
    (hnd : keys.Nodup) :
    ((keys.map (fun p => if p = q then c else 0)).sum) =
      if q ∈ keys then c else 0 := by
  induction keys with
  | nil => simp
  | cons x xs ih =>
    rw [List.map_cons, List.sum_cons, ih (List.Nodup.of_cons hnd)]
    by_cases hx : x = q
    · subst hx
      have hq : x ∉ xs := (List.nodup_cons.mp hnd).1
      simp [hq]
    · by_cases hmem : q ∈ xs <;> simp [hx, hmem, Ne.symm hx]

/-- Helper: `count` is `countP` of the equality test. -/
theorem countEqCountP {α : Type} [BEq α] (a : α) (l : List α) :
    l.count a = l.countP (fun x => x == a) :=
  rfl

/-- Helper: pointwise-equal functions map lists equally. -/
theorem mapCongrWithin {α β : Type} (l : List α) (f g : α → β)
    (h : ∀ a ∈ l, f a = g a) : l.map f = l.map g := by
  induction l with
  | nil => rfl
  | cons x xs ih =>
    rw [List.map_cons, List.map_cons, h x (by simp),
      ih (fun a ha => h a (by simp [ha]))]

/-- Helper: how many rows of one group bucket reference a given unique
item. -/
theorem rowCountPerKey (mode : GanttViewMode)
    (startLe : String → String → Bool) (items : List MilestoneItem)
    (it : MilestoneItem) (p q : String) (huniq : items.count it = 1) :
    List.countP (fun x => (p == q) && (x == it))
      (sortBy (fun a b => startLe a.startTime b.startTime)
        (groupItems mode p items)) =
      if p = q then (keysOf mode it).count q else 0 := by
  rw [List.Perm.countP_eq _ (sortByPerm _ _)]
  by_cases hpq : p = q
  · subst hpq
    rw [if_pos rfl]
    have hfun : (fun x : MilestoneItem => (p == p) && (x == it)) =
        (fun x => x == it) := by
      funext x
      simp
    rw [hfun, ← countEqCountP, groupItemsCount, huniq, one_mul]
  · rw [if_neg hpq]
    have hfun : (fun x : MilestoneItem => (p == q) && (x == it)) =
        (fun _ => false) := by
      funext x
      simp [hpq]
    rw [hfun]
    simp [List.countP_false]

/-- Helper: the rows referencing a given unique item carry exactly that
item's group keys (with multiplicity), whatever the collators do. -/
theorem rowsGroupsPerm (mode : GanttViewMode)
    (keyLe startLe : String → String → Bool) (items : List MilestoneItem)
    (it : MilestoneItem) (hmem : it ∈ items) (huniq : items.count it = 1) :
    List.Perm
      (((rowsFor mode keyLe startLe items).filter
          (fun r => r.item == it)).map (fun r => r.group))
      (keysOf mode it) := by
  rw [List.perm_iff_count]
  intro q
  have hsortnd :
      (sortBy keyLe (dedupFirst (items.flatMap (keysOf mode)))).Nodup :=
    (List.Perm.nodup_iff (sortByPerm _ _)).mpr (nodupDedupFirstAux _ _)
  have hL : List.count q
      (((rowsFor mode keyLe startLe items).filter
          (fun r => r.item == it)).map (fun r => r.group)) =
      ((sortBy keyLe (dedupFirst (items.flatMap (keysOf mode)))).map
        (fun p => if p = q then (keysOf mode it).count q else 0)).sum := by
    rw [countEqCountP, List.countP_map, List.countP_filter]
    rw [rowsFor, countPFlatMap]
    congr 1
    apply mapCongrWithin
    intro p hp
    rw [List.countP_map]
    have hfun : ((fun a : ChartRow =>
          ((fun x => x == q) ∘ fun r => r.group) a && (a.item == it)) ∘
        fun x => ChartRow.mk p (rowLabelOf x) x) =
        (fun x : MilestoneItem => (p == q) && (x == it)) := by
      funext x
      simp [Function.comp]
    rw [hfun]
    exact rowCountPerKey mode startLe items it p q huniq
  rw [hL, sumIfMemNodup q _ _ hsortnd]
  by_cases hqmem : q ∈ sortBy keyLe (dedupFirst (items.flatMap (keysOf mode)))
  · rw [if_pos hqmem]
  · rw [if_neg hqmem]
    have hq2 : q ∉ keysOf mode it := by
      intro hq
      apply hqmem
      rw [List.Perm.mem_iff (sortByPerm _ _), memDedupFirst]
      exact List.mem_flatMap.mpr ⟨it, hmem, hq⟩
    rw [eq_comm, List.count_eq_zero]
    exact hq2

/-! ## Claim C9: one row per item per group membership -/
/-- Claim C9: for a unique item of the visible set, the rows referencing it
carry exactly its group keys: in project view its single normalized project
(exactly one row), in person view one group per normalized person (so an
item with N distinct people yields exactly N rows, one under each of its
person groups).  Each such row holds the item itself, hence the same bar
span.  The statement is independent of the two opaque locale collators. -/
theorem rowsPerGroupMembership (keyLe startLe : String → String → Bool)
    (items : List MilestoneItem) (it : MilestoneItem)
    (hmem : it ∈ items) (huniq : items.count it = 1) :
    List.Perm
      (((rowsFor .project keyLe startLe items).filter
          (fun r => r.item == it)).map (fun r => r.group))
      [normalizeProjectName it] ∧
    List.Perm
      (((rowsFor .people keyLe startLe items).filter
          (fun r => r.item == it)).map (fun r => r.group))
      (normalizePeople it) ∧
    ((rowsFor .project keyLe startLe items).filter
        (fun r => r.item == it)).length = 1 ∧
    ((rowsFor .people keyLe startLe items).filter
        (fun r => r.item == it)).length = (normalizePeople it).length := by
  have hp := rowsGroupsPerm .project keyLe startLe items it hmem huniq
  have hu := rowsGroupsPerm .people keyLe startLe items it hmem huniq
  refine ⟨hp, hu, ?_, ?_⟩
  · have := hp.length_eq
    simpa using this
  · have := hu.length_eq
    simpa using this

/-- Witness for `rowsPerGroupMembership` at a one-item collection with two
people (the spec scenario): one row in project view, two rows in person
view. -/
theorem rowsPerGroupMembershipWitness :
    ((rowsFor .project (fun _ _ => true) (fun _ _ => true) [sampleItem]).filter
        (fun r => r.item == sampleItem)).length = 1 ∧
    ((rowsFor .people (fun _ _ => true) (fun _ _ => true) [sampleItem]).filter
        (fun r => r.item == sampleItem)).length =
      (normalizePeople sampleItem).length := by
  have h := rowsPerGroupMembership (fun _ _ => true) (fun _ _ => true)
    [sampleItem] sampleItem (by decide) (by decide)
  exact ⟨h.2.2.1, h.2.2.2⟩

/-! ## Claim C1: weekend shading raises a fault -/
/-- Claim C1 (code bug): a chart whose day range is the single Saturday
2024-03-02 reaches the weekend branch of the shading loop, which
dereferences the undeclared identifier `weekendFill` (the value read into
`svgWeekend` is never used); rendering therefore raises a `ReferenceError`
to the host instead of painting a weekend band, while a weekday-only range
(2024-03-04 .. 2024-03-05) completes without a fault — and paints no band
at all. -/
theorem renderChartWeekendReferenceError :
    chartDayRange [saturdayItem] = some (20240302, 20240302) ∧
    weekendBandsPass (eachDayKey 20240302 20240302) =
      .error "ReferenceError: weekendFill is not defined" ∧
    weekendBandsPass (eachDayKey 20240304 20240305) = .ok [] := by
  refine ⟨by decide, by rfl, by rfl⟩

end MilestoneGantt
